import Mathlib

/-!
Shallow embedding of the field-provenance merge engine of the `prelude`
repository: the `ContextMerger` (src/core/merger.ts), the `StateManager`
(src/core/state-manager.ts) with its state schema (src/schema/state.ts),
the reconciliation orchestrator (`update` / `forceUpdate` / `trackAllFields`)
and the watch-path updater (`updateContext`, src/core/updater.ts).

Runtime JavaScript values that flow through the merge engine are modelled by
the inductive type `Value` (JSON-shaped data); `undefined` is modelled by
absence (`Option.none` or a missing association-list entry).  `JSON.stringify`
is modelled by `stringifyValue`, and the content hash of the state manager
(sha256 hex digest truncated to 16 characters) is modelled bit-exactly by an
executable SHA-256 over the UTF-8 bytes of the serialization.
-/

/-- JSON-shaped runtime value.  Objects are insertion-ordered association
lists, exactly as JavaScript objects behave under `Object.keys` and
`JSON.stringify`. -/
inductive Value where
  | vnull : Value
  | vbool : Bool → Value
  | vnum : Int → Value
  | vstr : String → Value
  | varr : List Value → Value
  | vobj : List (String × Value) → Value

/-- JSON string escaping for the characters that can occur in the
documents handled here (quote and backslash). -/
def escapeChar (c : Char) : String :=
  if c = '"' then "\\\"" else if c = '\\' then "\\\\" else String.singleton c

/-- Quote a string as `JSON.stringify` does. -/
def quoteString (s : String) : String :=
  "\"" ++ String.join (s.toList.map escapeChar) ++ "\""

mutual

/-- Model of `JSON.stringify` on runtime values: insertion-ordered keys, no
whitespace.  This is the serialization the state manager hashes and the
merger compares. -/
def stringifyValue : Value → String
  | .vnull => "null"
  | .vbool true => "true"
  | .vbool false => "false"
  | .vnum n => toString n
  | .vstr s => quoteString s
  | .varr xs => "[" ++ stringifyArr xs ++ "]"
  | .vobj fs => "\x7b" ++ stringifyObj fs ++ "\x7d"

/-- Comma-separated serialization of an array body. -/
def stringifyArr : List Value → String
  | [] => ""
  | [x] => stringifyValue x
  | x :: y :: rest => stringifyValue x ++ "," ++ stringifyArr (y :: rest)

/-- Comma-separated serialization of an object body. -/
def stringifyObj : List (String × Value) → String
  | [] => ""
  | [(k, v)] => quoteString k ++ ":" ++ stringifyValue v
  | (k, v) :: p :: rest =>
      quoteString k ++ ":" ++ stringifyValue v ++ "," ++ stringifyObj (p :: rest)

end

/-- Model of `JSON.stringify` lifted to possibly-`undefined` values: JavaScript
returns `undefined` (not a string) on `undefined`. -/
def stringifyOpt : Option Value → Option String
  | none => none
  | some v => some (stringifyValue v)

/-- UTF-8 encoding of one character, as a list of byte values. -/
def utf8Char (c : Char) : List Nat :=
  let n := c.toNat
  if n < 128 then [n]
  else if n < 2048 then [192 ||| (n >>> 6), 128 ||| (n &&& 63)]
  else if n < 65536 then
    [224 ||| (n >>> 12), 128 ||| ((n >>> 6) &&& 63), 128 ||| (n &&& 63)]
  else
    [240 ||| (n >>> 18), 128 ||| ((n >>> 12) &&& 63),
     128 ||| ((n >>> 6) &&& 63), 128 ||| (n &&& 63)]

/-- UTF-8 bytes of a string. -/
def utf8Bytes (s : String) : List Nat :=
  (s.toList.map utf8Char).flatten

/-! ### SHA-256 (as used by `createHash('sha256')` in the state manager) -/

/-- Truncate to a 32-bit word. -/
def w32 (n : Nat) : Nat := n % 4294967296

/-- Right rotation of a 32-bit word. -/
def rotr32 (k x : Nat) : Nat := w32 ((x >>> k) ||| (x <<< (32 - k)))

/-- SHA-256 `Ch` function. -/
def shaCh (x y z : Nat) : Nat := (x &&& y) ^^^ ((x ^^^ 4294967295) &&& z)

/-- SHA-256 `Maj` function. -/
def shaMaj (x y z : Nat) : Nat := (x &&& y) ^^^ (x &&& z) ^^^ (y &&& z)

/-- SHA-256 Σ₀. -/
def bigSigma0 (x : Nat) : Nat := rotr32 2 x ^^^ rotr32 13 x ^^^ rotr32 22 x

/-- SHA-256 Σ₁. -/
def bigSigma1 (x : Nat) : Nat := rotr32 6 x ^^^ rotr32 11 x ^^^ rotr32 25 x

/-- SHA-256 σ₀. -/
def smallSigma0 (x : Nat) : Nat := rotr32 7 x ^^^ rotr32 18 x ^^^ (x >>> 3)

/-- SHA-256 σ₁. -/
def smallSigma1 (x : Nat) : Nat := rotr32 17 x ^^^ rotr32 19 x ^^^ (x >>> 10)

/-- SHA-256 round constants. -/
def shaK : List Nat :=
  [1116352408, 1899447441, 3049323471, 3921009573, 961987163,
   1508970993, 2453635748, 2870763221, 3624381080, 310598401,
   607225278, 1426881987, 1925078388, 2162078206, 2614888103,
   3248222580, 3835390401, 4022224774, 264347078, 604807628,
   770255983, 1249150122, 1555081692, 1996064986, 2554220882,
   2821834349, 2952996808, 3210313671, 3336571891, 3584528711,
   113926993, 338241895, 666307205, 773529912, 1294757372,
   1396182291, 1695183700, 1986661051, 2177026350, 2456956037,
   2730485921, 2820302411, 3259730800, 3345764771, 3516065817,
   3600352804, 4094571909, 275423344, 430227734, 506948616,
   659060556, 883997877, 958139571, 1322822218, 1537002063,
   1747873779, 1955562222, 2024104815, 2227730452, 2361852424,
   2428436474, 2756734187, 3204031479, 3329325298]

/-- SHA-256 initial hash state. -/
def shaH0 : List Nat :=
  [1779033703, 3144134277, 1013904242, 2773480762,
   1359893119, 2600822924, 528734635, 1541459225]

/-- Big-endian byte decomposition of `n` into `k` bytes. -/
def toBytesBE (k n : Nat) : List Nat :=
  (List.range k).map (fun i => (n >>> (8 * (k - 1 - i))) % 256)

/-- SHA-256 message padding: append `0x80`, zeros, and the 64-bit
big-endian bit length, up to a multiple of 64 bytes. -/
def padMessage (msg : List Nat) : List Nat :=
  let len := msg.length
  let padZeros := (119 - len % 64) % 64
  msg ++ [128] ++ List.replicate padZeros 0 ++ toBytesBE 8 (8 * len)

/-- Extend the 16 block words to the 64-word message schedule. -/
def shaSchedule (w16 : List Nat) : List Nat :=
  (List.range 48).foldl
    (fun w _ =>
      let n := w.length
      w ++ [w32 (smallSigma1 (w.getD (n - 2) 0) + w.getD (n - 7) 0 +
                 smallSigma0 (w.getD (n - 15) 0) + w.getD (n - 16) 0)])
    w16

/-- One SHA-256 compression step over a 64-byte block. -/
def shaCompress (h : List Nat) (block : List Nat) : List Nat :=
  let w16 := (List.range 16).map (fun i =>
    (block.getD (4 * i) 0 <<< 24) + (block.getD (4 * i + 1) 0 <<< 16) +
    (block.getD (4 * i + 2) 0 <<< 8) + block.getD (4 * i + 3) 0)
  let ws := shaSchedule w16
  let final := (shaK.zip ws).foldl
    (fun st kw =>
      match st with
      | [a, b, c, d, e, f, g, hh] =>
          let t1 := w32 (hh + bigSigma1 e + shaCh e f g + kw.1 + kw.2)
          let t2 := w32 (bigSigma0 a + shaMaj a b c)
          [w32 (t1 + t2), a, b, c, w32 (d + t1), e, f, g]
      | other => other)
    h
  (h.zip final).map (fun p => w32 (p.1 + p.2))

/-- Process `fuel` consecutive 64-byte blocks. -/
def shaBlocks : Nat → List Nat → List Nat → List Nat
  | 0, _, h => h
  | fuel + 1, msg, h => shaBlocks fuel (msg.drop 64) (shaCompress h (msg.take 64))

/-- SHA-256 digest of a byte list, as eight 32-bit words. -/
def sha256Words (msg : List Nat) : List Nat :=
  let p := padMessage msg
  shaBlocks (p.length / 64) p shaH0

/-- Lower-case hex digit. -/
def hexDigit (n : Nat) : Char :=
  if n < 10 then Char.ofNat (48 + n) else Char.ofNat (87 + n)

/-- Eight-hex-digit rendering of a 32-bit word. -/
def wordToHex (n : Nat) : String :=
  String.mk ((List.range 8).map (fun i => hexDigit ((n >>> (4 * (7 - i))) % 16)))

/-- Hex digest of a byte list. -/
def sha256Hex (msg : List Nat) : String :=
  String.join ((sha256Words msg).map wordToHex)

/-! ### Provenance state (src/schema/state.ts, src/core/state-manager.ts) -/

/-- Field provenance tag (`source` in `FieldStateSchema`). -/
inductive Source where
  | inferred : Source
  | manual : Source
  | merged : Source
deriving DecidableEq, Repr

/-- One tracked field (`FieldStateSchema`).  Optional JSON members are
`Option`s; `undefined` members are `none`. -/
structure FieldState where
  value : Value
  source : Source
  lastInferred : Option String
  lastModified : Option String
  inferredHash : Option String

/-- State of one tracked document file (`FileStateSchema`).  The `fields`
record is an insertion-ordered association list from field path to
`FieldState`. -/
structure FileState where
  file : String
  lastUpdated : String
  fields : List (String × FieldState)

/-- The whole provenance store (`PreludeStateSchema`),
persisted as `.context/.prelude/state.json`. -/
structure PreludeState where
  version : String
  initialized : String
  lastUpdate : String
  files : List FileState

/-- Model of `createInitialState()` from src/schema/state.ts. -/
def createInitialState (now : String) : PreludeState :=
  { version := "1.0.0", initialized := now, lastUpdate := now, files := [] }

/-- Model of `trackField(value, source, inferredHash?)` from src/schema/state.ts:
builds a fresh `FieldState`, stamping `lastInferred` or `lastModified`
depending on the source and storing exactly the hash it was given
(`undefined`, i.e. `none`, when the caller passed none). -/
def trackField (value : Value) (source : Source) (inferredHash : Option String)
    (now : String) : FieldState :=
  { value := value
    source := source
    lastInferred := if source = .inferred then some now else none
    lastModified := if source = .manual then some now else none
    inferredHash := inferredHash }

/-- First-occurrence lookup in an association list
(JavaScript property read `obj[key]`). -/
def assocGet {α : Type} : List (String × α) → String → Option α
  | [], _ => none
  | (k, v) :: rest, key => if k = key then some v else assocGet rest key

/-- Property write `obj[key] = v`: overwrite the first binding of `key`
in place, or append a new binding. -/
def assocSet {α : Type} : List (String × α) → String → α → List (String × α)
  | [], key, v => [(key, v)]
  | (k, x) :: rest, key, v =>
      if k = key then (k, v) :: rest else (k, x) :: assocSet rest key v

namespace StateManager

/-- Model of `StateManager.hash(value)`: first 16 characters of the hex sha256 digest
of `JSON.stringify(value)`. -/
def hash (value : Value) : String :=
  (sha256Hex (utf8Bytes (stringifyValue value))).take 16

/-- Model of `getFileState(file)`: first entry of `state.files` with that name. -/
def getFileState (st : PreludeState) (file : String) : Option FileState :=
  st.files.find? (fun f => f.file = file)

/-- Apply `upd` to the first `FileState` named `file`. -/
def replaceFile (files : List FileState) (file : String)
    (upd : FileState → FileState) : List FileState :=
  match files with
  | [] => []
  | f :: rest =>
      if f.file = file then upd f :: rest else f :: replaceFile rest file upd

/-- Model of `getOrCreateFileState(file)` followed by the in-place mutation `upd` of
the found or freshly pushed `FileState`. -/
def updateFileState (st : PreludeState) (file : String) (now : String)
    (upd : FileState → FileState) : PreludeState :=
  match getFileState st file with
  | some _ => { st with files := replaceFile st.files file upd }
  | none =>
      { st with files :=
          st.files ++ [upd { file := file, lastUpdated := now, fields := [] }] }

/-- Model of `trackInferred(file, fieldPath, value)`: store a fresh Inferred
`FieldState` carrying the hash of the value, and touch `lastUpdated`. -/
def trackInferred (st : PreludeState) (file fieldPath : String) (value : Value)
    (now : String) : PreludeState :=
  updateFileState st file now (fun fs =>
    { fs with
        fields := assocSet fs.fields fieldPath
          (trackField value .inferred (some (hash value)) now)
        lastUpdated := now })

/-- Model of `trackManual(file, fieldPath, value)`: store a fresh Manual `FieldState`
(no hash argument is passed, so the stored `inferredHash` is `undefined`),
and touch `lastUpdated`. -/
def trackManual (st : PreludeState) (file fieldPath : String) (value : Value)
    (now : String) : PreludeState :=
  updateFileState st file now (fun fs =>
    { fs with
        fields := assocSet fs.fields fieldPath (trackField value .manual none now)
        lastUpdated := now })

/-- Model of `getFieldState(file, fieldPath)`. -/
def getFieldState (st : PreludeState) (file fieldPath : String) :
    Option FieldState :=
  match getFileState st file with
  | none => none
  | some fs => assocGet fs.fields fieldPath

/-- Model of `isManuallyEdited(file, fieldPath)`. -/
def isManuallyEdited (st : PreludeState) (file fieldPath : String) : Bool :=
  match getFieldState st file fieldPath with
  | some fs => fs.source = .manual
  | none => false

/-- Model of `hasInferredChanged(file, fieldPath, newValue)`: true when nothing was
tracked, or the stored `inferredHash` differs from the hash of the new
value. -/
def hasInferredChanged (st : PreludeState) (file fieldPath : String)
    (newValue : Value) : Bool :=
  match getFileState st file with
  | none => true
  | some fs =>
      match assocGet fs.fields fieldPath with
      | none => true
      | some fieldState => fieldState.inferredHash ≠ some (hash newValue)

/-- Model of `getManualFields(file)`: the paths of the fields tracked `manual`,
in insertion order (`Object.entries`). -/
def getManualFields (st : PreludeState) (file : String) : List String :=
  match getFileState st file with
  | none => []
  | some fs => (fs.fields.filter (fun kv => kv.2.source = .manual)).map (·.1)

/-- Model of `save()`: stamp `lastUpdate` before writing the live state file. -/
def save (st : PreludeState) (now : String) : PreludeState :=
  { st with lastUpdate := now }

end StateManager

/-! ### Documents (src/schema) -/

/-- The project document is handled by the merger as a duck-typed object
(`Object.keys`, nested field paths), so it is modelled as an
insertion-ordered association list of JSON values. -/
def Project : Type := List (String × Value)

/-- Stack document (src/schema/stack.ts); optional members are `Option`s. -/
structure Stack where
  language : String
  runtime : Option String
  packageManager : Option String
  framework : Option String
  frameworks : Option (List String)
  dependencies : Option (List (String × String))
  devDependencies : Option (List (String × String))
  buildTools : Option (List String)
  testingFrameworks : Option (List String)
  styling : Option (List String)
  database : Option String
  orm : Option String
  stateManagement : Option String
  deployment : Option String
  cicd : Option (List String)
deriving DecidableEq, Repr

/-- One entry of `architecture.directories`. -/
structure DirEntry where
  path : String
  purpose : Option String
  fileCount : Option Int
deriving DecidableEq, Repr

/-- One entry of `architecture.entryPoints`. -/
structure EntryPoint where
  file : String
  purpose : String
deriving DecidableEq, Repr

/-- Architecture document (src/schema/architecture.ts). -/
structure Architecture where
  type : Option String
  directories : Option (List DirEntry)
  patterns : Option (List String)
  conventions : Option (List String)
  entryPoints : Option (List EntryPoint)
  routing : Option String
  stateManagement : Option String
  apiStyle : Option String
  dataFlow : Option String
deriving DecidableEq, Repr

/-- One entry of `constraints.preferences`. -/
structure Preference where
  category : String
  preference : String
  rationale : Option String
deriving DecidableEq, Repr

/-- Sub-object `constraints.codeStyle`. -/
structure CodeStyle where
  formatter : Option String
  linter : Option String
  rules : Option (List String)
deriving DecidableEq, Repr

/-- Constraints document (src/schema/constraints.ts); sub-objects not
touched by the merger are kept at their schema shape. -/
structure Constraints where
  mustUse : Option (List String)
  mustNotUse : Option (List String)
  preferences : Option (List Preference)
  codeStyle : Option CodeStyle
  naming : Option (List (String × String))
  fileOrganization : Option (List String)
  testing : Option (List (String × String))
  documentation : Option (List (String × String))
  performance : Option (List String)
  security : Option (List String)
  accessibility : Option (List String)
deriving DecidableEq, Repr

/-! ### Merge engine (src/core/merger.ts) -/

/-- The `MergeChange.type` tags. -/
inductive ChangeType where
  | added : ChangeType
  | removed : ChangeType
  | modified : ChangeType
  | preserved : ChangeType
deriving DecidableEq, Repr

/-- One change record produced by a merge (`MergeChange`); the optional
`oldValue` / `newValue` members are `none` when the source omits them. -/
structure MergeChange where
  field : String
  type : ChangeType
  oldValue : Option Value
  newValue : Option Value
  reason : String

/-- Result of one document merge (`MergeResult<T>`). -/
structure MergeResult (T : Type) where
  merged : T
  changes : List MergeChange

namespace ContextMerger

/-- Test for the JSON `null` value. -/
def isVNull : Value → Bool
  | .vnull => true
  | _ => false

/-- JavaScript truthiness of a JSON value. -/
def truthy : Value → Bool
  | .vnull => false
  | .vbool b => b
  | .vnum n => n ≠ 0
  | .vstr s => s ≠ ""
  | .varr _ => true
  | .vobj _ => true

/-- Character-level model of the JavaScript `path.split('.')`: split on
every dot, keeping empty segments. -/
def splitDotChars : List Char → List Char → List String
  | [], acc => [String.mk acc.reverse]
  | c :: cs, acc =>
      if c = '.' then String.mk acc.reverse :: splitDotChars cs []
      else splitDotChars cs (c :: acc)

/-- Model of `path.split('.')`. -/
def splitDot (s : String) : List String :=
  splitDotChars s.toList []

/-- Model of `getNestedValue(obj, path)` after `path.split('.')`:
`keys.reduce((curr, key) => curr?.[key], obj)`.  Reading a property of a
non-object (or of `undefined`) yields `undefined`. -/
def getNestedSteps : Option Value → List String → Option Value
  | cur, [] => cur
  | some (.vobj fs), key :: rest => getNestedSteps (assocGet fs key) rest
  | _, _ :: _ => none

/-- Model of `getNestedValue` on a project object. -/
def getNestedValue (obj : Project) (path : String) : Option Value :=
  getNestedSteps (some (.vobj obj)) (splitDot path)

/-- Model of `setNestedValue(obj, path, value)` as a pure update.  Walking replaces a
falsy intermediate with a fresh `{}`; writing a property onto a truthy
non-object is not observable in the resulting JSON document. -/
def setNestedSteps : List String → List (String × Value) → Value →
    List (String × Value)
  | [], fs, _ => fs
  | [key], fs, v => assocSet fs key v
  | key :: k2 :: rest, fs, v =>
      match assocGet fs key with
      | some s =>
          if truthy s then
            match s with
            | .vobj o => assocSet fs key (.vobj (setNestedSteps (k2 :: rest) o v))
            | _ => fs
          else assocSet fs key (.vobj (setNestedSteps (k2 :: rest) [] v))
      | none => assocSet fs key (.vobj (setNestedSteps (k2 :: rest) [] v))

/-- Model of `setNestedValue` on a project object. -/
def setNestedValue (obj : Project) (path : String) (value : Value) : Project :=
  setNestedSteps (splitDot path) obj value

/-- The hard-preserved project fields (`preserveFields` in `mergeProject`). -/
def preserveFields : List String := ["team", "goals"]

/-- One iteration of the manual-field preservation loop of `mergeProject`:
when `existing` carries a value at the tracked path, write it into the
merged document and report `preserved` when it differs (as serialized)
from the inferred value. -/
def manualFieldStep (existing inferred : Project)
    (acc : Project × List MergeChange) (field : String) :
    Project × List MergeChange :=
  let existingValue := getNestedValue existing field
  let inferredValue := getNestedValue inferred field
  match existingValue with
  | none => acc
  | some ev =>
      let merged := setNestedValue acc.1 field ev
      let changes :=
        if stringifyOpt (some ev) ≠ stringifyOpt inferredValue then
          acc.2 ++ [{ field := field, type := .preserved,
                      oldValue := inferredValue, newValue := some ev,
                      reason := "Manually edited field preserved" }]
        else acc.2
      (merged, changes)

/-- One iteration of the hard-preservation loop of `mergeProject` over
`team` / `goals`: keep the existing top-level value when it exists, is not
null and differs (as serialized) from the inferred value. -/
def preserveFieldStep (existing inferred : Project)
    (acc : Project × List MergeChange) (field : String) :
    Project × List MergeChange :=
  let existingValue := assocGet existing field
  let inferredValue := assocGet inferred field
  match existingValue with
  | none => acc
  | some ev =>
      if isVNull ev = false ∧ stringifyOpt (some ev) ≠ stringifyOpt inferredValue then
        (assocSet acc.1 field ev,
         acc.2 ++ [{ field := field, type := .preserved,
                     oldValue := none, newValue := some ev,
                     reason := "User-maintained field" }])
      else acc

/-- One iteration of the inferred-key scan of `mergeProject`: report
`added` / `modified` for keys outside the preserved and manual sets whose
serialized value changed. -/
def inferredKeyStep (existing inferred : Project) (manualFields : List String)
    (changes : List MergeChange) (key : String) : List MergeChange :=
  if preserveFields.contains key ∨ manualFields.contains key then changes
  else
    let oldValue := assocGet existing key
    let newValue := assocGet inferred key
    if stringifyOpt oldValue ≠ stringifyOpt newValue then
      match oldValue with
      | none => changes ++ [{ field := key, type := .added,
                              oldValue := none, newValue := newValue,
                              reason := "New inferred value" }]
      | some ov => changes ++ [{ field := key, type := .modified,
                                 oldValue := some ov, newValue := newValue,
                                 reason := "Codebase changed" }]
    else changes

/-- Model of `mergeProject(existing, inferred)`.  The three passes of the source are
folds in source order: manual-field preservation, hard-preservation of
`team`/`goals`, and the scan of `inferred`'s own keys; finally `updatedAt`
is restamped. -/
def mergeProject (stateManager : PreludeState) (existing inferred : Project)
    (now : String) : MergeResult Project :=
  let manualFields := StateManager.getManualFields stateManager "project.json"
  let step1 := manualFields.foldl (manualFieldStep existing inferred) (inferred, [])
  let step2 := preserveFields.foldl (preserveFieldStep existing inferred) step1
  let step3 := (inferred.map (·.1)).foldl
    (inferredKeyStep existing inferred manualFields) step2.2
  { merged := assocSet step2.1 "updatedAt" (.vstr now), changes := step3 }

/-- Insertion-order deduplication: `new Set(list)` iterated in order. -/
def jsSetOf (l : List String) : List String :=
  l.foldl (fun acc x => if acc.contains x then acc else acc ++ [x]) []

/-- The dependency pool `mergeStack` builds from one Stack document:
frameworks, build tools, testing frameworks and styling, deduplicated in
insertion order. -/
def depsOf (s : Stack) : List String :=
  jsSetOf (s.frameworks.getD [] ++ s.buildTools.getD [] ++
           s.testingFrameworks.getD [] ++ s.styling.getD [])

/-- Model of `mergeStack(existing, inferred)`: the merged document is the shallow
copy of `inferred`; the change list reports dependency-pool differences
only.  The provenance store is never consulted. -/
def mergeStack (existing inferred : Stack) : MergeResult Stack :=
  let existingDeps := depsOf existing
  let inferredDeps := depsOf inferred
  let removedChanges := (existingDeps.filter
      (fun dep => !inferredDeps.contains dep)).map
    (fun dep => { field := "dependencies", type := .removed,
                  oldValue := some (.vstr dep), newValue := none,
                  reason := "No longer detected in project" : MergeChange })
  let addedChanges := (inferredDeps.filter
      (fun dep => !existingDeps.contains dep)).map
    (fun dep => { field := "dependencies", type := .added,
                  oldValue := none, newValue := some (.vstr dep),
                  reason := "New dependency detected" : MergeChange })
  { merged := inferred, changes := removedChanges ++ addedChanges }

/-- Model of `mergeArchitecture(existing, inferred)`: `patterns` is preserved when
tracked manual; directories are reconciled by path into Removed/Added
change records (the merged value stays `inferred`'s). -/
def mergeArchitecture (stateManager : PreludeState)
    (existing inferred : Architecture) : MergeResult Architecture :=
  let manualFields := StateManager.getManualFields stateManager "architecture.json"
  let withPatterns :=
    if manualFields.contains "patterns" then
      ({ inferred with patterns := existing.patterns },
       [{ field := "patterns", type := .preserved,
          oldValue := none,
          newValue := (existing.patterns).map (fun l => .varr (l.map .vstr)),
          reason := "Manually specified patterns" : MergeChange }])
    else (inferred, [])
  let dirChanges :=
    match existing.directories, inferred.directories with
    | some exDirs, some infDirs =>
        let existingDirPaths := jsSetOf (exDirs.map (·.path))
        let inferredDirPaths := jsSetOf (infDirs.map (·.path))
        (exDirs.filter (fun d => !inferredDirPaths.contains d.path)).map
          (fun d => { field := "directories", type := .removed,
                      oldValue := some (.vstr d.path), newValue := none,
                      reason := "Directory no longer exists" : MergeChange }) ++
        (infDirs.filter (fun d => !existingDirPaths.contains d.path)).map
          (fun d => { field := "directories", type := .added,
                      oldValue := none, newValue := some (.vstr d.path),
                      reason := "New directory detected" : MergeChange })
    | _, _ => []
  { merged := withPatterns.1, changes := withPatterns.2 ++ dirChanges }

/-- JSON value of one preference entry (optional `rationale` omitted when
absent), used in the change report. -/
def preferenceValue (p : Preference) : Value :=
  .vobj ([("category", .vstr p.category), ("preference", .vstr p.preference)] ++
    match p.rationale with
    | some r => [("rationale", .vstr r)]
    | none => [])

/-- Model of `mergeConstraints(existing, inferred)`: preferences whose
`preferences.<category>` path is tracked manual are appended to the
inferred list; `mustUse` / `mustNotUse` are deduplicated unions of the
inferred list with the manually tracked existing items. -/
def mergeConstraints (stateManager : PreludeState)
    (existing inferred : Constraints) : MergeResult Constraints :=
  let prefStep :=
    match existing.preferences with
    | some ps =>
        if ps.length > 0 then
          let manualPreferences := ps.filter (fun (p : Preference) =>
            StateManager.isManuallyEdited stateManager "constraints.json"
              ("preferences." ++ p.category))
          let merged := { inferred with
            preferences := some (inferred.preferences.getD [] ++ manualPreferences) }
          if manualPreferences.length > 0 then
            (merged,
             [{ field := "preferences", type := .preserved,
                oldValue := none,
                newValue := some (.varr (manualPreferences.map preferenceValue)),
                reason := "User-defined preferences preserved" : MergeChange }])
          else (merged, [])
        else (inferred, [])
    | none => (inferred, [])
  let mustUseStep :=
    match existing.mustUse with
    | some xs =>
        let manual := xs.filter (fun item =>
          StateManager.isManuallyEdited stateManager "constraints.json"
            ("mustUse." ++ item))
        { prefStep.1 with mustUse := some (jsSetOf (inferred.mustUse.getD [] ++ manual)) }
    | none => prefStep.1
  let mustNotUseStep :=
    match existing.mustNotUse with
    | some xs =>
        let manual := xs.filter (fun item =>
          StateManager.isManuallyEdited stateManager "constraints.json"
            ("mustNotUse." ++ item))
        { mustUseStep with
            mustNotUse := some (jsSetOf (inferred.mustNotUse.getD [] ++ manual)) }
    | none => mustUseStep
  { merged := mustNotUseStep, changes := prefStep.2 }

end ContextMerger
/-! ### Runtime object views of the typed documents

`trackAllFields` iterates `Object.keys` of the merged and inferred
documents, so the typed documents need their JSON object form: present
fields in schema order, absent (`undefined`) fields omitted. -/

/-- Optional object member: present iff the value is. -/
def optField (k : String) : Option Value → List (String × Value)
  | some v => [(k, v)]
  | none => []

/-- JSON array of strings. -/
def strList (l : List String) : Value := .varr (l.map .vstr)

/-- JSON object with string values (e.g. a dependency record). -/
def strMap (l : List (String × String)) : Value :=
  .vobj (l.map (fun p => (p.1, .vstr p.2)))

/-- Object form of a Stack document. -/
def Stack.toObj (s : Stack) : List (String × Value) :=
  [("language", .vstr s.language)] ++
  optField "runtime" (s.runtime.map .vstr) ++
  optField "packageManager" (s.packageManager.map .vstr) ++
  optField "framework" (s.framework.map .vstr) ++
  optField "frameworks" (s.frameworks.map strList) ++
  optField "dependencies" (s.dependencies.map strMap) ++
  optField "devDependencies" (s.devDependencies.map strMap) ++
  optField "buildTools" (s.buildTools.map strList) ++
  optField "testingFrameworks" (s.testingFrameworks.map strList) ++
  optField "styling" (s.styling.map strList) ++
  optField "database" (s.database.map .vstr) ++
  optField "orm" (s.orm.map .vstr) ++
  optField "stateManagement" (s.stateManagement.map .vstr) ++
  optField "deployment" (s.deployment.map .vstr) ++
  optField "cicd" (s.cicd.map strList)

/-- Object form of one directory entry. -/
def DirEntry.toObj (d : DirEntry) : Value :=
  .vobj ([("path", .vstr d.path)] ++
    optField "purpose" (d.purpose.map .vstr) ++
    optField "fileCount" (d.fileCount.map .vnum))

/-- Object form of an Architecture document. -/
def Architecture.toObj (a : Architecture) : List (String × Value) :=
  optField "type" (a.type.map .vstr) ++
  optField "directories" (a.directories.map (fun ds => .varr (ds.map DirEntry.toObj))) ++
  optField "patterns" (a.patterns.map strList) ++
  optField "conventions" (a.conventions.map strList) ++
  optField "entryPoints" (a.entryPoints.map (fun es => .varr (es.map (fun e =>
    .vobj [("file", .vstr e.file), ("purpose", .vstr e.purpose)])))) ++
  optField "routing" (a.routing.map .vstr) ++
  optField "stateManagement" (a.stateManagement.map .vstr) ++
  optField "apiStyle" (a.apiStyle.map .vstr) ++
  optField "dataFlow" (a.dataFlow.map .vstr)

/-- Object form of `constraints.codeStyle`. -/
def CodeStyle.toObj (c : CodeStyle) : Value :=
  .vobj (optField "formatter" (c.formatter.map .vstr) ++
    optField "linter" (c.linter.map .vstr) ++
    optField "rules" (c.rules.map strList))

/-- Object form of a Constraints document. -/
def Constraints.toObj (c : Constraints) : List (String × Value) :=
  optField "mustUse" (c.mustUse.map strList) ++
  optField "mustNotUse" (c.mustNotUse.map strList) ++
  optField "preferences" (c.preferences.map (fun ps =>
    .varr (ps.map ContextMerger.preferenceValue))) ++
  optField "codeStyle" (c.codeStyle.map CodeStyle.toObj) ++
  optField "naming" (c.naming.map strMap) ++
  optField "fileOrganization" (c.fileOrganization.map strList) ++
  optField "testing" (c.testing.map strMap) ++
  optField "documentation" (c.documentation.map strMap) ++
  optField "performance" (c.performance.map strList) ++
  optField "security" (c.security.map strList) ++
  optField "accessibility" (c.accessibility.map strList)

/-! ### Reconciliation orchestrator (the `update` command module) -/

/-- The documents produced by one round of inference. -/
structure InferOracle where
  project : Except String Project
  stack : Except String Stack
  architecture : Except String Architecture
  constraints : Except String Constraints

/-- On-disk state the `update` command touches: the four context documents,
the documents excluded from regeneration (decision log and changelog), the
live provenance state file, and the backup history directory. -/
structure World where
  project : Project
  stack : Stack
  architecture : Architecture
  constraints : Constraints
  decisions : Value
  changelog : String
  state : PreludeState
  history : List PreludeState

/-- A merge change tagged with its document file, as collected into
`allChanges`. -/
structure FileChange where
  file : String
  change : MergeChange

/-- How one `update` invocation ends. -/
inductive UpdateOutcome where
  | exited : String → World → UpdateOutcome
  | noChanges : World → UpdateOutcome
  | dryRunDone : World → List FileChange → UpdateOutcome
  | forcedDryRun : World → UpdateOutcome
  | forced : World → UpdateOutcome
  | applied : World → List FileChange → UpdateOutcome

/-- One iteration of `trackAllFields`: read the merged value of one key,
track it Inferred when its serialization equals the inferred document's
serialization at the same key, Manual otherwise. -/
def trackAllFieldsStep (file : String) (merged inferred : List (String × Value))
    (now : String) (st : PreludeState) (key : String) : PreludeState :=
  match assocGet merged key with
  | none => st
  | some mergedValue =>
      if stringifyOpt (some mergedValue) = stringifyOpt (assocGet inferred key)
      then StateManager.trackInferred st file key mergedValue now
      else StateManager.trackManual st file key mergedValue now

/-- Model of `trackAllFields(stateManager, file, merged, inferred)`: for each key of
the merged object, track it Inferred when its serialization equals the
inferred document's serialization of the same key, Manual otherwise. -/
def trackAllFields (st : PreludeState) (file : String)
    (merged inferred : List (String × Value)) (now : String) : PreludeState :=
  (merged.map (·.1)).foldl (trackAllFieldsStep file merged inferred now) st

/-- The combined `allChanges` list of one smart-merge pass, ordered
project, stack, architecture, constraints. -/
def allChangesOf (projectResult : MergeResult Project) (stackResult : MergeResult Stack)
    (architectureResult : MergeResult Architecture)
    (constraintsResult : MergeResult Constraints) : List FileChange :=
  projectResult.changes.map (fun c => { file := "project.json", change := c }) ++
  stackResult.changes.map (fun c => { file := "stack.json", change := c }) ++
  architectureResult.changes.map (fun c => { file := "architecture.json", change := c }) ++
  constraintsResult.changes.map (fun c => { file := "constraints.json", change := c })

/-- The `update(options)` command.  A failing inference call throws into the
single surrounding try/catch, which logs and exits the process: this is the
`exited` outcome, reached before any document write.  In force mode the
four documents are overwritten with the inferred ones and the provenance
store is not touched; in merge mode an empty combined change list returns
before persisting; otherwise documents are written, every field is
re-tracked and the state file saved. -/
def update (w : World) (infer : InferOracle) (force dryRun : Bool)
    (now : String) : UpdateOutcome :=
  let w1 := if dryRun then w else { w with history := w.history ++ [w.state] }
  match infer.project with
  | .error e => .exited e w1
  | .ok inferredProject =>
  match infer.stack with
  | .error e => .exited e w1
  | .ok inferredStack =>
  match infer.architecture with
  | .error e => .exited e w1
  | .ok inferredArchitecture =>
  match infer.constraints with
  | .error e => .exited e w1
  | .ok inferredConstraints =>
  if force then
    if dryRun then .forcedDryRun w1
    else .forced { w1 with project := inferredProject, stack := inferredStack,
                           architecture := inferredArchitecture,
                           constraints := inferredConstraints }
  else
    let projectResult := ContextMerger.mergeProject w1.state w.project inferredProject now
    let stackResult := ContextMerger.mergeStack w.stack inferredStack
    let architectureResult :=
      ContextMerger.mergeArchitecture w1.state w.architecture inferredArchitecture
    let constraintsResult :=
      ContextMerger.mergeConstraints w1.state w.constraints inferredConstraints
    let allChanges :=
      allChangesOf projectResult stackResult architectureResult constraintsResult
    if allChanges.length = 0 then .noChanges w1
    else if dryRun then .dryRunDone w1 allChanges
    else
      let w2 := { w1 with project := projectResult.merged,
                          stack := stackResult.merged,
                          architecture := architectureResult.merged,
                          constraints := constraintsResult.merged }
      let st1 := trackAllFields w2.state "project.json"
        projectResult.merged inferredProject now
      let st2 := trackAllFields st1 "stack.json"
        stackResult.merged.toObj inferredStack.toObj now
      let st3 := trackAllFields st2 "architecture.json"
        architectureResult.merged.toObj inferredArchitecture.toObj now
      let st4 := trackAllFields st3 "constraints.json"
        constraintsResult.merged.toObj inferredConstraints.toObj now
      .applied { w2 with state := StateManager.save st4 now } allChanges

/-! ### Watch-path updater (src/core/updater.ts) -/

/-- The `UpdateResult` of `updateContext`. -/
structure WatchResult where
  updated : List String
  unchanged : List String
  errors : List String
deriving DecidableEq, Repr

/-- The context files the watch-path updater touches.  `none` models a
missing file. -/
structure WatchWorld where
  project : Option Project
  stack : Option Stack
  architecture : Option Architecture
  constraints : Option Constraints

/-- One step of naive substring search. -/
def startsWithChars : List Char → List Char → Bool
  | _, [] => true
  | [], _ :: _ => false
  | c :: cs, p :: ps => c = p && startsWithChars cs ps

/-- Substring search on character lists. -/
def containsSubChars : List Char → List Char → Bool
  | [], pat => pat.isEmpty
  | c :: cs, pat => startsWithChars (c :: cs) pat || containsSubChars cs pat

/-- JavaScript `string.includes(pattern)`. -/
def containsSub (s pat : String) : Bool :=
  containsSubChars s.toList pat.toList

/-- Changed-file trigger for stack regeneration. -/
def needsStackUpdate (files : List String) : Bool :=
  files.any (fun f => containsSub f "package.json" || containsSub f "requirements.txt" ||
    containsSub f "Cargo.toml" || containsSub f "go.mod")

/-- Changed-file trigger for architecture regeneration. -/
def needsArchUpdate (files : List String) : Bool :=
  files.any (fun f => containsSub f "src/" || containsSub f "lib/" ||
    containsSub f "app/" || containsSub f "pages/")

/-- Changed-file trigger for constraints regeneration. -/
def needsConstraintsUpdate (files : List String) : Bool :=
  files.any (fun f => containsSub f "tsconfig.json" || containsSub f "eslint" ||
    containsSub f "prettier" || containsSub f "tailwind.config")

/-- Model of `updateContext(rootDir, files)`: each needed document kind is inferred
and written inside its own try/catch; a failure is pushed onto
`result.errors` and the remaining kinds still run.  Finally the project
document's `updatedAt` is restamped when the file exists. -/
def updateContext (files : List String) (w : WatchWorld) (infer : InferOracle)
    (now : String) : WatchWorld × WatchResult :=
  let r0 : WatchResult := { updated := [], unchanged := [], errors := [] }
  let s1 :=
    if needsStackUpdate files then
      match infer.stack with
      | .ok stack => ({ w with stack := some stack },
                      { r0 with updated := r0.updated ++ ["stack.json"] })
      | .error e => (w, { r0 with errors := r0.errors ++ ["Failed to update stack: " ++ e] })
    else (w, r0)
  let s2 :=
    if needsArchUpdate files then
      match infer.architecture with
      | .ok architecture =>
          ({ s1.1 with architecture := some architecture },
           { s1.2 with updated := s1.2.updated ++ ["architecture.json"] })
      | .error e =>
          (s1.1, { s1.2 with errors := s1.2.errors ++ ["Failed to update architecture: " ++ e] })
    else s1
  let s3 :=
    if needsConstraintsUpdate files then
      match infer.constraints with
      | .ok constraints =>
          ({ s2.1 with constraints := some constraints },
           { s2.2 with updated := s2.2.updated ++ ["constraints.json"] })
      | .error e =>
          (s2.1, { s2.2 with errors := s2.2.errors ++ ["Failed to update constraints: " ++ e] })
    else s2
  match s3.1.project with
  | some p =>
      let w4 := { s3.1 with project := some (assocSet p "updatedAt" (.vstr now)) }
      if s3.2.updated.contains "project.json" then (w4, s3.2)
      else (w4, { s3.2 with updated := s3.2.updated ++ ["project.json"] })
  | none => s3
/-! ### Basic lemmas about the embedding -/

theorem assocGet_assocSet_self {α : Type} (l : List (String × α)) (k : String) (v : α) :
    assocGet (assocSet l k v) k = some v := by
  induction l with
  | nil => simp [assocSet, assocGet]
  | cons hd tl ih =>
      obtain ⟨k1, x⟩ := hd
      by_cases h : k1 = k
      · simp [assocSet, assocGet, h]
      · simp [assocSet, assocGet, h, ih]

theorem assocGet_assocSet_ne {α : Type} (l : List (String × α)) (k k' : String) (v : α)
    (h : k ≠ k') : assocGet (assocSet l k v) k' = assocGet l k' := by
  induction l with
  | nil => simp [assocSet, assocGet, h]
  | cons hd tl ih =>
      obtain ⟨k1, x⟩ := hd
      by_cases h1 : k1 = k
      · subst h1
        simp [assocSet, assocGet, h]
      · simp [assocSet, assocGet, h1, ih]

theorem mem_keys_of_assocGet {α : Type} {l : List (String × α)} {k : String} {v : α}
    (h : assocGet l k = some v) : k ∈ l.map (·.1) := by
  induction l with
  | nil => simp [assocGet] at h
  | cons hd tl ih =>
      obtain ⟨k1, x⟩ := hd
      by_cases h1 : k1 = k
      · simp [h1]
      · simp only [assocGet, if_neg h1] at h
        simp [ih h]

theorem mem_foldl_jsSet (l acc : List String) (x : String) :
    x ∈ l.foldl (fun acc y => if acc.contains y then acc else acc ++ [y]) acc ↔
      x ∈ acc ∨ x ∈ l := by
  induction l generalizing acc with
  | nil => simp
  | cons a l ih =>
      simp only [List.foldl_cons]
      by_cases h : acc.contains a
      · rw [if_pos h, ih]
        have ha : a ∈ acc := by simpa using h
        constructor
        · rintro (hx | hx)
          · exact Or.inl hx
          · exact Or.inr (List.mem_cons_of_mem _ hx)
        · rintro (hx | hx)
          · exact Or.inl hx
          · rcases List.mem_cons.mp hx with rfl | hx
            · exact Or.inl ha
            · exact Or.inr hx
      · rw [if_neg h, ih]
        simp [List.mem_append, List.mem_cons, or_assoc]

theorem mem_jsSetOf (l : List String) (x : String) :
    x ∈ ContextMerger.jsSetOf l ↔ x ∈ l := by
  rw [ContextMerger.jsSetOf, mem_foldl_jsSet]
  simp

theorem foldl_jsSet_of_nodup (l acc : List String) (hn : l.Nodup)
    (hd : ∀ x ∈ l, x ∉ acc) :
    l.foldl (fun acc y => if acc.contains y then acc else acc ++ [y]) acc = acc ++ l := by
  induction l generalizing acc with
  | nil => simp
  | cons a l ih =>
      simp only [List.foldl_cons]
      have ha : ¬ acc.contains a := by
        simpa using hd a (List.mem_cons_self a l)
      rw [if_neg ha, ih (acc ++ [a]) (List.Nodup.of_cons hn) ?hd]
      · simp
      case hd =>
        intro x hx
        simp only [List.mem_append, List.mem_singleton]
        rintro (hacc | rfl)
        · exact hd x (List.mem_cons_of_mem _ hx) hacc
        · exact (List.nodup_cons.mp hn).1 hx

theorem jsSetOf_eq_self (l : List String) (h : l.Nodup) :
    ContextMerger.jsSetOf l = l := by
  rw [ContextMerger.jsSetOf, foldl_jsSet_of_nodup l [] h (by simp)]
  simp

theorem filter_not_contains_eq_nil {α : Type} (P : List α) (f : α → String)
    (Q : List String) (h : ∀ x ∈ P, f x ∈ Q) :
    P.filter (fun x => !Q.contains (f x)) = [] := by
  rw [List.filter_eq_nil_iff]
  intro a ha
  simp [h a ha]
/-! ### State-manager lemmas -/

theorem find?_append_none {α : Type} (l : List α) (x : α) (p : α → Bool)
    (h : l.find? p = none) :
    (l ++ [x]).find? p = if p x then some x else none := by
  induction l with
  | nil =>
      simp only [List.nil_append, List.find?]
      cases p x <;> simp
  | cons a l ih =>
      cases ha : p a
      · simp only [List.find?, ha] at h
        simp only [List.cons_append, List.find?, ha]
        exact ih h
      · simp [List.find?, ha] at h

theorem find?_append_some {α : Type} (l : List α) (x a : α) (p : α → Bool)
    (h : l.find? p = some a) : (l ++ [x]).find? p = some a := by
  induction l with
  | nil => simp [List.find?] at h
  | cons b l ih =>
      cases hb : p b
      · simp only [List.find?, hb] at h
        simp only [List.cons_append, List.find?, hb]
        exact ih h
      · simp only [List.find?, hb] at h
        simp only [List.cons_append, List.find?, hb]
        exact h

theorem find?_replaceFile_self (files : List FileState) (file : String)
    (upd : FileState → FileState) (fs : FileState)
    (hupd : ∀ f, (upd f).file = f.file)
    (h : files.find? (fun f => f.file = file) = some fs) :
    (StateManager.replaceFile files file upd).find? (fun f => f.file = file) =
      some (upd fs) := by
  induction files with
  | nil => simp [List.find?] at h
  | cons f rest ih =>
      rw [StateManager.replaceFile]
      by_cases hf : f.file = file
      · rw [if_pos hf]
        rw [List.find?_cons_of_pos _ (by simp [hf])] at h
        rw [List.find?_cons_of_pos _ (by simp [hupd, hf])]
        injection h with h
        rw [h]
      · rw [if_neg hf]
        rw [List.find?_cons_of_neg _ (by simp [hf])] at h
        rw [List.find?_cons_of_neg _ (by simp [hf])]
        exact ih h

theorem find?_replaceFile_ne (files : List FileState) (file file' : String)
    (upd : FileState → FileState) (hne : file' ≠ file)
    (hupd : ∀ fs, (upd fs).file = fs.file) :
    (StateManager.replaceFile files file upd).find? (fun f => f.file = file') =
      files.find? (fun f => f.file = file') := by
  induction files with
  | nil => rfl
  | cons f rest ih =>
      rw [StateManager.replaceFile]
      by_cases hf : f.file = file
      · rw [if_pos hf]
        have h1 : ¬ ((upd f).file = file') := by
          rw [hupd, hf]
          exact fun hh => hne hh.symm
        have h2 : ¬ (f.file = file') := by
          rw [hf]
          exact fun hh => hne hh.symm
        simp [List.find?, h1, h2]
      · rw [if_neg hf]
        by_cases hf' : f.file = file'
        · simp [List.find?, hf']
        · simp [List.find?, hf', ih]
theorem getFileState_updateFileState_self (st : PreludeState) (file now : String)
    (upd : FileState → FileState) (hupd : ∀ fs, (upd fs).file = fs.file) :
    StateManager.getFileState (StateManager.updateFileState st file now upd) file =
      some (upd (match StateManager.getFileState st file with
                 | some fs => fs
                 | none => { file := file, lastUpdated := now, fields := [] })) := by
  unfold StateManager.updateFileState
  cases h : StateManager.getFileState st file with
  | none =>
      simp only [StateManager.getFileState] at h ⊢
      rw [find?_append_none st.files _ _ h]
      simp [hupd]
  | some fs =>
      simp only [StateManager.getFileState] at h ⊢
      exact find?_replaceFile_self st.files file upd fs hupd h

theorem getFileState_updateFileState_ne (st : PreludeState) (file file' now : String)
    (upd : FileState → FileState) (hne : file' ≠ file)
    (hupd : ∀ fs, (upd fs).file = fs.file) :
    StateManager.getFileState (StateManager.updateFileState st file now upd) file' =
      StateManager.getFileState st file' := by
  unfold StateManager.updateFileState
  cases h : StateManager.getFileState st file with
  | none =>
      simp only [StateManager.getFileState] at h ⊢
      cases h2 : st.files.find? (fun f => f.file = file') with
      | some fs => exact find?_append_some _ _ _ _ h2
      | none =>
          rw [find?_append_none _ _ _ h2]
          have hx : ¬ ((upd { file := file, lastUpdated := now, fields := [] }).file = file') := by
            rw [hupd]
            exact fun hh => hne hh.symm
          simp [hx]
  | some fs =>
      simp only [StateManager.getFileState] at h ⊢
      exact find?_replaceFile_ne st.files file file' upd hne hupd

theorem getFieldState_trackManual_self (st : PreludeState) (file path : String)
    (value : Value) (now : String) :
    StateManager.getFieldState (StateManager.trackManual st file path value now)
      file path = some (trackField value .manual none now) := by
  unfold StateManager.trackManual StateManager.getFieldState
  rw [getFileState_updateFileState_self st file now
    (fun fs => { fs with
        fields := assocSet fs.fields path (trackField value .manual none now)
        lastUpdated := now }) (fun fs => rfl)]
  exact assocGet_assocSet_self _ _ _

theorem getFieldState_trackInferred_self (st : PreludeState) (file path : String)
    (value : Value) (now : String) :
    StateManager.getFieldState (StateManager.trackInferred st file path value now)
      file path =
      some (trackField value .inferred (some (StateManager.hash value)) now) := by
  unfold StateManager.trackInferred StateManager.getFieldState
  rw [getFileState_updateFileState_self st file now
    (fun fs => { fs with
        fields := assocSet fs.fields path
          (trackField value .inferred (some (StateManager.hash value)) now)
        lastUpdated := now }) (fun fs => rfl)]
  exact assocGet_assocSet_self _ _ _

theorem getFieldState_trackManual_ne (st : PreludeState) (file path path' : String)
    (value : Value) (now : String) (h : path ≠ path') :
    StateManager.getFieldState (StateManager.trackManual st file path value now)
      file path' = StateManager.getFieldState st file path' := by
  unfold StateManager.trackManual StateManager.getFieldState
  rw [getFileState_updateFileState_self st file now
    (fun fs => { fs with
        fields := assocSet fs.fields path (trackField value .manual none now)
        lastUpdated := now }) (fun fs => rfl)]
  cases hh : StateManager.getFileState st file with
  | none => simp [hh, assocGet_assocSet_ne _ _ _ _ h, assocGet, h]
  | some fs => simp [hh, assocGet_assocSet_ne _ _ _ _ h]

theorem getFieldState_trackInferred_ne (st : PreludeState) (file path path' : String)
    (value : Value) (now : String) (h : path ≠ path') :
    StateManager.getFieldState (StateManager.trackInferred st file path value now)
      file path' = StateManager.getFieldState st file path' := by
  unfold StateManager.trackInferred StateManager.getFieldState
  rw [getFileState_updateFileState_self st file now
    (fun fs => { fs with
        fields := assocSet fs.fields path
          (trackField value .inferred (some (StateManager.hash value)) now)
        lastUpdated := now }) (fun fs => rfl)]
  cases hh : StateManager.getFileState st file with
  | none => simp [hh, assocGet_assocSet_ne _ _ _ _ h, assocGet, h]
  | some fs => simp [hh, assocGet_assocSet_ne _ _ _ _ h]
/-! ### Sample documents for concrete instances -/

/-- A Stack document with only the mandatory field populated. -/
def baseStack : Stack :=
  { language := "typescript", runtime := none, packageManager := none,
    framework := none, frameworks := none, dependencies := none,
    devDependencies := none, buildTools := none, testingFrameworks := none,
    styling := none, database := none, orm := none, stateManagement := none,
    deployment := none, cicd := none }

/-- An Architecture document with no populated field. -/
def baseArchitecture : Architecture :=
  { type := none, directories := none, patterns := none, conventions := none,
    entryPoints := none, routing := none, stateManagement := none,
    apiStyle := none, dataFlow := none }

/-- A Constraints document with no populated field. -/
def baseConstraints : Constraints :=
  { mustUse := none, mustNotUse := none, preferences := none, codeStyle := none,
    naming := none, fileOrganization := none, testing := none,
    documentation := none, performance := none, security := none,
    accessibility := none }

/-- A minimal project document object. -/
def baseProject : Project :=
  [("name", .vstr "demo"), ("description", .vstr "a demo")]

/-- A world whose documents are the base samples and whose provenance
store is freshly initialized. -/
def baseWorld : World :=
  { project := baseProject, stack := baseStack, architecture := baseArchitecture,
    constraints := baseConstraints, decisions := .vobj [], changelog := "",
    state := createInitialState "t0", history := [] }

/-- An inference oracle that reproduces the base documents. -/
def okOracle : InferOracle :=
  { project := .ok baseProject, stack := .ok baseStack,
    architecture := .ok baseArchitecture, constraints := .ok baseConstraints }

/-- The world a finished `update` left behind. -/
def UpdateOutcome.world : UpdateOutcome → World
  | .exited _ w => w
  | .noChanges w => w
  | .dryRunDone w _ => w
  | .forcedDryRun w => w
  | .forced w => w
  | .applied w _ => w

/-! ### C9 -/

/-- C9: for every pair of existing and inferred Stack documents,
`mergeStack` returns the inferred document itself as the merged document
(no value from `existing` flows into it, manual-tracked or not — the
provenance store is not even consulted), and every change record is an
`added` or `removed` entry under the single field name `dependencies`. -/
theorem mergeStack_merged_eq_inferred (existing inferred : Stack) :
    (ContextMerger.mergeStack existing inferred).merged = inferred ∧
    ∀ c ∈ (ContextMerger.mergeStack existing inferred).changes,
      c.field = "dependencies" ∧ (c.type = .added ∨ c.type = .removed) := by
  refine ⟨rfl, ?_⟩
  intro c hc
  simp only [ContextMerger.mergeStack, List.mem_append, List.mem_map] at hc
  rcases hc with ⟨d, hd, rfl⟩ | ⟨d, hd, rfl⟩
  · exact ⟨rfl, Or.inr rfl⟩
  · exact ⟨rfl, Or.inl rfl⟩

/-- C9, concrete instance of `mergeStack_merged_eq_inferred`. -/
theorem mergeStack_merged_eq_inferred_witness :
    (ContextMerger.mergeStack baseStack
        { baseStack with frameworks := some ["React"] }).merged =
      { baseStack with frameworks := some ["React"] } ∧
    ∀ c ∈ (ContextMerger.mergeStack baseStack
        { baseStack with frameworks := some ["React"] }).changes,
      c.field = "dependencies" ∧ (c.type = .added ∨ c.type = .removed) :=
  mergeStack_merged_eq_inferred baseStack { baseStack with frameworks := some ["React"] }

/-! ### C4 -/

/-- C4 (amended): `trackManual` overwrites the whole tracked `FieldState`
with a fresh one: provenance Manual, `lastModified` stamped to now, the
new value — and no `inferredHash` at all.  A hash recorded by an earlier
`trackInferred` is discarded, not kept. -/
theorem trackManual_replaces_whole_field_state (st : PreludeState)
    (file path : String) (value : Value) (now : String) :
    StateManager.getFieldState (StateManager.trackManual st file path value now)
      file path =
      some { value := value, source := .manual, lastInferred := none,
             lastModified := some now, inferredHash := none } := by
  rw [getFieldState_trackManual_self]
  rfl

/-- C4, counterexample to the claim as stated: after `trackInferred` stores
a content hash for `project.json` / `name`, a `trackManual` on the same
path leaves `inferredHash = none` rather than the prior hash. -/
theorem trackManual_discards_prior_hash_cex :
    (StateManager.getFieldState
        (StateManager.trackInferred (createInitialState "t0")
          "project.json" "name" (.vstr "demo") "t1")
        "project.json" "name").map (fun fs => fs.inferredHash) =
      some (some (StateManager.hash (.vstr "demo"))) ∧
    (StateManager.getFieldState
        (StateManager.trackManual
          (StateManager.trackInferred (createInitialState "t0")
            "project.json" "name" (.vstr "demo") "t1")
          "project.json" "name" (.vstr "renamed") "t2")
        "project.json" "name").map (fun fs => fs.inferredHash) = some none :=
  ⟨rfl, rfl⟩

/-! ### C5 -/

/-- C5 (amended): the drift-detection digest is computed over the plain
`JSON.stringify` serialization, which preserves key insertion order; it is
stable under equality of that serialization (equal serializations give
equal digests), but not under key reordering. -/
theorem hash_congr_of_stringify_eq (v w : Value)
    (h : stringifyValue v = stringifyValue w) :
    StateManager.hash v = StateManager.hash w := by
  unfold StateManager.hash
  rw [h]

/-- C5, concrete instance of `hash_congr_of_stringify_eq`. -/
theorem hash_congr_of_stringify_eq_witness :
    StateManager.hash (.varr [.vnum 1]) = StateManager.hash (.varr [.vnum 1]) :=
  hash_congr_of_stringify_eq (.varr [.vnum 1]) (.varr [.vnum 1]) rfl

set_option maxRecDepth 10000 in
/-- C5, counterexample to the claim as stated: the two objects
`a:1, b:2` and `b:2, a:1` are equal up to key ordering (their field lists
are permutations), yet their digests differ, because `JSON.stringify` is
not a canonical sorted-key serialization. -/
theorem hash_key_reorder_cex :
    [("a", Value.vnum 1), ("b", Value.vnum 2)].Perm
      [("b", Value.vnum 2), ("a", Value.vnum 1)] ∧
    StateManager.hash (.vobj [("a", .vnum 1), ("b", .vnum 2)]) ≠
      StateManager.hash (.vobj [("b", .vnum 2), ("a", .vnum 1)]) := by
  constructor
  · exact List.Perm.swap _ _ _
  · decide

/-! ### C1, C2 counterexamples (stack ignores the provenance store) -/

/-- C1, counterexample to the claim as stated ("for every document kind"):
for the stack kind, the path `frameworks` is tracked Manual with value
`["Vue"]` present in existing, inference produces the different value
`["Svelte"]`, yet the merged document carries the inferred value and no
`preserved` change is recorded — `mergeStack` never consults the store. -/
theorem mergeStack_manual_not_preserved_cex :
    StateManager.isManuallyEdited
      (StateManager.trackManual (createInitialState "t0") "stack.json"
        "frameworks" (strList ["Vue"]) "t1") "stack.json" "frameworks" = true ∧
    (ContextMerger.mergeStack
        { baseStack with frameworks := some ["Vue"] }
        { baseStack with frameworks := some ["Svelte"] }).merged.frameworks =
      some ["Svelte"] ∧
    ((ContextMerger.mergeStack
        { baseStack with frameworks := some ["Vue"] }
        { baseStack with frameworks := some ["Svelte"] }).changes.all
      (fun c => decide (c.type ≠ ChangeType.preserved))) = true := by
  decide

/-- C2, counterexample to the claim as stated: with
`existing.stack.frameworks = ["React","Remix"]`, `"Remix"` Manual-tracked,
and `inferred.stack.frameworks = ["React","Next.js"]`, the merged
frameworks are `["React","Next.js"]` — `"Remix"` is dropped, not retained
— and no `preserved` change is reported (the diff appears as
removed/added `dependencies` entries). -/
theorem mergeStack_no_set_union_cex :
    StateManager.isManuallyEdited
      (StateManager.trackManual (createInitialState "t0") "stack.json"
        "frameworks.Remix" (.vstr "Remix") "t1") "stack.json" "frameworks.Remix" = true ∧
    (ContextMerger.mergeStack
        { baseStack with frameworks := some ["React", "Remix"] }
        { baseStack with frameworks := some ["React", "Next.js"] }).merged.frameworks =
      some ["React", "Next.js"] ∧
    (ContextMerger.mergeStack
        { baseStack with frameworks := some ["React", "Remix"] }
        { baseStack with frameworks := some ["React", "Next.js"] }).merged.frameworks ≠
      some ["React", "Next.js", "Remix"] ∧
    ((ContextMerger.mergeStack
        { baseStack with frameworks := some ["React", "Remix"] }
        { baseStack with frameworks := some ["React", "Next.js"] }).changes.all
      (fun c => decide (c.type ≠ ChangeType.preserved))) = true := by
  decide
/-! ### C2: the set-union rule in `mergeConstraints` -/

theorem mergeConstraints_mustUse_proj (st : PreludeState) (existing inferred : Constraints)
    (xs : List String) (hmu : existing.mustUse = some xs) :
    (ContextMerger.mergeConstraints st existing inferred).merged.mustUse =
      some (ContextMerger.jsSetOf (inferred.mustUse.getD [] ++
        xs.filter (fun item =>
          StateManager.isManuallyEdited st "constraints.json" ("mustUse." ++ item)))) := by
  simp only [ContextMerger.mergeConstraints, hmu]
  cases hp : existing.preferences with
  | none => cases hx : existing.mustNotUse <;> rfl
  | some ps =>
      by_cases hl : ps.length > 0
      · simp only [hp, if_pos hl]
        split <;> cases hx : existing.mustNotUse <;> rfl
      · simp only [hp, if_neg hl]
        cases hx : existing.mustNotUse <;> rfl

theorem mergeConstraints_mustNotUse_proj (st : PreludeState) (existing inferred : Constraints)
    (ys : List String) (hmnu : existing.mustNotUse = some ys) :
    (ContextMerger.mergeConstraints st existing inferred).merged.mustNotUse =
      some (ContextMerger.jsSetOf (inferred.mustNotUse.getD [] ++
        ys.filter (fun item =>
          StateManager.isManuallyEdited st "constraints.json" ("mustNotUse." ++ item)))) := by
  simp only [ContextMerger.mergeConstraints, hmnu]

/-- C2 (amended): the set-union rule `merged = inferred ∪ (existing ∩ manual)`
holds in `mergeConstraints` for the `mustUse` and `mustNotUse` arrays, with
per-element manual tracking under the paths `mustUse.<item>` /
`mustNotUse.<item>`: an element is in the merged array iff it is inferred,
or existing and manually tracked.  It does not hold for the stack arrays
(frameworks, build tools, ...), which are replaced wholesale by `mergeStack`
and reported as added/removed `dependencies` entries, and no
Added/Preserved/Removed entries per element are reported for
`mustUse`/`mustNotUse`. -/
theorem mergeConstraints_union (st : PreludeState) (existing inferred : Constraints)
    (xs ys : List String) (hmu : existing.mustUse = some xs)
    (hmnu : existing.mustNotUse = some ys) :
    ∃ us vs,
      (ContextMerger.mergeConstraints st existing inferred).merged.mustUse = some us ∧
      (ContextMerger.mergeConstraints st existing inferred).merged.mustNotUse = some vs ∧
      (∀ e, e ∈ us ↔ (e ∈ inferred.mustUse.getD [] ∨ (e ∈ xs ∧
        StateManager.isManuallyEdited st "constraints.json" ("mustUse." ++ e) = true))) ∧
      (∀ e, e ∈ vs ↔ (e ∈ inferred.mustNotUse.getD [] ∨ (e ∈ ys ∧
        StateManager.isManuallyEdited st "constraints.json" ("mustNotUse." ++ e) = true))) := by
  refine ⟨_, _, mergeConstraints_mustUse_proj st existing inferred xs hmu,
    mergeConstraints_mustNotUse_proj st existing inferred ys hmnu, ?_, ?_⟩
  all_goals
    intro e
    rw [mem_jsSetOf]
    simp [List.mem_append, List.mem_filter]

/-- C2, concrete instance of `mergeConstraints_union`. -/
theorem mergeConstraints_union_witness :
    ∃ us vs,
      (ContextMerger.mergeConstraints
        (StateManager.trackManual (createInitialState "t0") "constraints.json"
          "mustUse.zod" (.vstr "zod") "t1")
        { baseConstraints with mustUse := some ["zod", "left-pad"],
                               mustNotUse := some ["moment"] }
        { baseConstraints with mustUse := some ["typescript"] }).merged.mustUse = some us ∧
      (ContextMerger.mergeConstraints
        (StateManager.trackManual (createInitialState "t0") "constraints.json"
          "mustUse.zod" (.vstr "zod") "t1")
        { baseConstraints with mustUse := some ["zod", "left-pad"],
                               mustNotUse := some ["moment"] }
        { baseConstraints with mustUse := some ["typescript"] }).merged.mustNotUse = some vs ∧
      (∀ e, e ∈ us ↔ (e ∈ (({ baseConstraints with mustUse := some ["typescript"] } : Constraints).mustUse.getD []) ∨
        (e ∈ ["zod", "left-pad"] ∧
          StateManager.isManuallyEdited
            (StateManager.trackManual (createInitialState "t0") "constraints.json"
              "mustUse.zod" (.vstr "zod") "t1") "constraints.json" ("mustUse." ++ e) = true))) ∧
      (∀ e, e ∈ vs ↔ (e ∈ (({ baseConstraints with mustUse := some ["typescript"] } : Constraints).mustNotUse.getD []) ∨
        (e ∈ ["moment"] ∧
          StateManager.isManuallyEdited
            (StateManager.trackManual (createInitialState "t0") "constraints.json"
              "mustUse.zod" (.vstr "zod") "t1") "constraints.json" ("mustNotUse." ++ e) = true))) :=
  mergeConstraints_union _ _ _ ["zod", "left-pad"] ["moment"] rfl rfl

/-! ### C3: merging a document with itself -/

theorem foldl_id {α β : Type} (f : α → β → α) (l : List β) (a : α)
    (h : ∀ a b, f a b = a) : l.foldl f a = a := by
  induction l generalizing a with
  | nil => rfl
  | cons b l ih => rw [List.foldl_cons, h, ih]

theorem preserveFieldStep_self (proj : Project) (acc : Project × List MergeChange)
    (f : String) : ContextMerger.preserveFieldStep proj proj acc f = acc := by
  unfold ContextMerger.preserveFieldStep
  cases h : assocGet proj f with
  | none => rfl
  | some ev => simp [stringifyOpt]

theorem inferredKeyStep_self (proj : Project) (mf : List String)
    (changes : List MergeChange) (key : String) :
    ContextMerger.inferredKeyStep proj proj mf changes key = changes := by
  unfold ContextMerger.inferredKeyStep
  by_cases hk : ContextMerger.preserveFields.contains key ∨ mf.contains key
  · rw [if_pos hk]
  · rw [if_neg hk]
    simp

theorem mergeProject_self (st : PreludeState) (proj : Project) (now : String)
    (hproj : StateManager.getManualFields st "project.json" = []) :
    ContextMerger.mergeProject st proj proj now =
      { merged := assocSet proj "updatedAt" (.vstr now), changes := [] } := by
  unfold ContextMerger.mergeProject
  rw [hproj]
  simp only [List.foldl_nil]
  rw [foldl_id _ _ _ (preserveFieldStep_self proj)]
  rw [foldl_id _ _ _ (inferredKeyStep_self proj [])]

theorem filter_not_contains_self (P Q : List String) (h : ∀ x ∈ P, x ∈ Q) :
    P.filter (fun x => !Q.contains x) = [] := by
  rw [List.filter_eq_nil_iff]
  intro a ha
  simp [h a ha]

theorem mergeStack_self (stk : Stack) :
    ContextMerger.mergeStack stk stk = { merged := stk, changes := [] } := by
  unfold ContextMerger.mergeStack
  dsimp only
  rw [filter_not_contains_self _ _ (fun x hx => hx)]
  rfl

theorem filter_path_not_contains_self (ds : List DirEntry) (Q : List String)
    (h : ∀ d ∈ ds, d.path ∈ Q) :
    ds.filter (fun d => !Q.contains d.path) = [] := by
  rw [List.filter_eq_nil_iff]
  intro a ha
  simp [h a ha]

theorem mergeArchitecture_self (st : PreludeState) (arch : Architecture)
    (harch : StateManager.getManualFields st "architecture.json" = []) :
    ContextMerger.mergeArchitecture st arch arch =
      { merged := arch, changes := [] } := by
  obtain ⟨ty, dirs, pats, conv, eps, ro, sm, api, df⟩ := arch
  unfold ContextMerger.mergeArchitecture
  rw [harch]
  cases dirs with
  | none => rfl
  | some ds =>
      dsimp only
      rw [filter_path_not_contains_self ds _ (fun d hd2 => by
        rw [mem_jsSetOf]
        exact List.mem_map_of_mem _ hd2)]
      rfl

theorem mergeConstraints_self (st : PreludeState) (cons : Constraints)
    (hc1 : ∀ p, StateManager.isManuallyEdited st "constraints.json" p = false)
    (hmu : (cons.mustUse.getD []).Nodup) (hmnu : (cons.mustNotUse.getD []).Nodup) :
    ContextMerger.mergeConstraints st cons cons =
      { merged := cons, changes := [] } := by
  have hfilterS : ∀ (l : List String) (pre : String),
      l.filter (fun item =>
        StateManager.isManuallyEdited st "constraints.json" (pre ++ item)) = [] := by
    intro l pre
    rw [List.filter_eq_nil_iff]
    intro a _
    simp [hc1]
  have hfilterP : ∀ (ps : List Preference),
      ps.filter (fun p =>
        StateManager.isManuallyEdited st "constraints.json"
          ("preferences." ++ p.category)) = [] := by
    intro ps
    rw [List.filter_eq_nil_iff]
    intro a _
    simp [hc1]
  obtain ⟨mu, mnu, prefs, cs, nm, fo, te, doc, pf, sec, acc⟩ := cons
  unfold ContextMerger.mergeConstraints
  cases prefs with
  | none =>
      cases mu with
      | none =>
          cases mnu with
          | none => rfl
          | some ys =>
              dsimp only
              rw [hfilterS ys "mustNotUse."]
              simp only [Option.getD_some] at hmnu ⊢
              rw [List.append_nil, jsSetOf_eq_self ys hmnu]
      | some xs =>
          dsimp only
          rw [hfilterS xs "mustUse."]
          simp only [Option.getD_some] at hmu ⊢
          cases mnu with
          | none =>
              rw [List.append_nil, jsSetOf_eq_self xs hmu]
          | some ys =>
              dsimp only
              rw [hfilterS ys "mustNotUse."]
              simp only [Option.getD_some] at hmnu ⊢
              rw [List.append_nil, List.append_nil,
                jsSetOf_eq_self xs hmu, jsSetOf_eq_self ys hmnu]
  | some ps =>
      dsimp only
      rw [hfilterP ps]
      by_cases hl : ps.length > 0
      · rw [if_pos hl]
        cases mu <;> cases mnu <;>
          simp_all [hfilterS, jsSetOf_eq_self]
      · rw [if_neg hl]
        cases mu <;> cases mnu <;>
          simp_all [hfilterS, jsSetOf_eq_self]

/-- C3 (amended): merging a document with itself yields an empty change
list and an unchanged document for the stack, architecture and constraints
kinds, and for the project kind the unchanged document with `updatedAt`
restamped — provided the provenance store tracks no Manual field for the
kind and the constraint arrays are duplicate-free.  (With Manual tracking
the change list need not be empty: see the counterexample.) -/
theorem merge_self_id (st : PreludeState) (proj : Project) (stk : Stack)
    (arch : Architecture) (cons : Constraints) (now : String)
    (hproj : StateManager.getManualFields st "project.json" = [])
    (harch : StateManager.getManualFields st "architecture.json" = [])
    (hcons : ∀ p, StateManager.isManuallyEdited st "constraints.json" p = false)
    (hmu : (cons.mustUse.getD []).Nodup) (hmnu : (cons.mustNotUse.getD []).Nodup) :
    ContextMerger.mergeProject st proj proj now =
      { merged := assocSet proj "updatedAt" (.vstr now), changes := [] } ∧
    ContextMerger.mergeStack stk stk = { merged := stk, changes := [] } ∧
    ContextMerger.mergeArchitecture st arch arch = { merged := arch, changes := [] } ∧
    ContextMerger.mergeConstraints st cons cons = { merged := cons, changes := [] } :=
  ⟨mergeProject_self st proj now hproj, mergeStack_self stk,
   mergeArchitecture_self st arch harch, mergeConstraints_self st cons hcons hmu hmnu⟩

/-- C3, concrete instance of `merge_self_id`. -/
theorem merge_self_id_witness :
    ContextMerger.mergeProject (createInitialState "t0") baseProject baseProject "t1" =
      { merged := assocSet baseProject "updatedAt" (.vstr "t1"), changes := [] } ∧
    ContextMerger.mergeStack baseStack baseStack = { merged := baseStack, changes := [] } ∧
    ContextMerger.mergeArchitecture (createInitialState "t0") baseArchitecture baseArchitecture =
      { merged := baseArchitecture, changes := [] } ∧
    ContextMerger.mergeConstraints (createInitialState "t0")
        { baseConstraints with mustUse := some ["zod"] }
        { baseConstraints with mustUse := some ["zod"] } =
      { merged := { baseConstraints with mustUse := some ["zod"] }, changes := [] } :=
  merge_self_id (createInitialState "t0") baseProject baseStack baseArchitecture
    { baseConstraints with mustUse := some ["zod"] } "t1" rfl rfl (fun p => rfl)
    (by decide) (by decide)

/-- C3, counterexample to idempotence as stated: with the path `patterns`
tracked Manual, merging an Architecture document with itself records a
spurious `preserved` change, so the change list is not empty. (The project
merge additionally restamps `updatedAt` on every run.) -/
theorem merge_self_not_idempotent_cex :
    (ContextMerger.mergeArchitecture
        (StateManager.trackManual (createInitialState "t0") "architecture.json"
          "patterns" (strList ["MVC"]) "t1")
        { baseArchitecture with patterns := some ["MVC"] }
        { baseArchitecture with patterns := some ["MVC"] }).changes.length = 1 ∧
    ((ContextMerger.mergeArchitecture
        (StateManager.trackManual (createInitialState "t0") "architecture.json"
          "patterns" (strList ["MVC"]) "t1")
        { baseArchitecture with patterns := some ["MVC"] }
        { baseArchitecture with patterns := some ["MVC"] }).changes.all
      (fun c => decide (c.type = ChangeType.preserved))) = true := by
  decide
/-! ### C1: manual preservation in the project merge -/

theorem getNestedValue_top (obj : Project) (p : String) (h : ContextMerger.splitDot p = [p]) :
    ContextMerger.getNestedValue obj p = assocGet obj p := by
  unfold ContextMerger.getNestedValue
  rw [h]
  simp only [ContextMerger.getNestedSteps]

theorem setNestedValue_top (obj : Project) (p : String) (v : Value)
    (h : ContextMerger.splitDot p = [p]) :
    ContextMerger.setNestedValue obj p v = assocSet obj p v := by
  unfold ContextMerger.setNestedValue
  rw [h]
  simp only [ContextMerger.setNestedSteps]

theorem manualFieldStep_hit (existing inferred : Project)
    (acc : Project × List MergeChange) (p : String) (v : Value)
    (htop : ContextMerger.splitDot p = [p])
    (hex : assocGet existing p = some v)
    (hne : stringifyOpt (some v) ≠ stringifyOpt (assocGet inferred p)) :
    ContextMerger.manualFieldStep existing inferred acc p =
      (assocSet acc.1 p v,
       acc.2 ++ [{ field := p, type := .preserved,
                   oldValue := assocGet inferred p, newValue := some v,
                   reason := "Manually edited field preserved" }]) := by
  unfold ContextMerger.manualFieldStep
  rw [getNestedValue_top existing p htop, getNestedValue_top inferred p htop, hex]
  dsimp only
  rw [if_pos hne, setNestedValue_top acc.1 p v htop]

theorem manualFieldStep_frame (existing inferred : Project)
    (acc : Project × List MergeChange) (q p : String)
    (hq : ContextMerger.splitDot q = [q]) (hne : q ≠ p) :
    assocGet (ContextMerger.manualFieldStep existing inferred acc q).1 p =
      assocGet acc.1 p ∧
    ∃ suf, (ContextMerger.manualFieldStep existing inferred acc q).2 = acc.2 ++ suf := by
  unfold ContextMerger.manualFieldStep
  rw [getNestedValue_top existing q hq]
  cases h : assocGet existing q with
  | none => exact ⟨rfl, [], by simp⟩
  | some ev =>
      dsimp only
      rw [setNestedValue_top acc.1 q ev hq]
      refine ⟨assocGet_assocSet_ne _ _ _ _ hne, ?_⟩
      split
      · exact ⟨_, rfl⟩
      · exact ⟨[], by simp⟩

theorem manualFold_frame (existing inferred : Project) (fields : List String)
    (p : String) (acc : Project × List MergeChange)
    (htop : ∀ q ∈ fields, ContextMerger.splitDot q = [q]) (hp : p ∉ fields) :
    assocGet (fields.foldl (ContextMerger.manualFieldStep existing inferred) acc).1 p =
      assocGet acc.1 p ∧
    ∃ suf, (fields.foldl (ContextMerger.manualFieldStep existing inferred) acc).2 =
      acc.2 ++ suf := by
  induction fields generalizing acc with
  | nil => exact ⟨rfl, [], by simp⟩
  | cons q rest ih =>
      have hq : q ≠ p := fun hh => hp (hh ▸ List.mem_cons_self q rest)
      obtain ⟨h1, s1, h2⟩ := manualFieldStep_frame existing inferred acc q p
        (htop q (List.mem_cons_self q rest)) hq
      obtain ⟨h3, s2, h4⟩ := ih (ContextMerger.manualFieldStep existing inferred acc q)
        (fun r hr => htop r (List.mem_cons_of_mem _ hr))
        (fun hh => hp (List.mem_cons_of_mem _ hh))
      refine ⟨?_, s1 ++ s2, ?_⟩
      · rw [List.foldl_cons, h3, h1]
      · rw [List.foldl_cons, h4, h2, List.append_assoc]

theorem manualFold_spec (existing inferred : Project) (fields : List String)
    (p : String) (v : Value) (acc : Project × List MergeChange)
    (hmem : p ∈ fields) (hnodup : fields.Nodup)
    (htop : ∀ q ∈ fields, ContextMerger.splitDot q = [q])
    (hex : assocGet existing p = some v)
    (hne : stringifyOpt (some v) ≠ stringifyOpt (assocGet inferred p)) :
    assocGet (fields.foldl (ContextMerger.manualFieldStep existing inferred) acc).1 p =
      some v ∧
    ∃ c ∈ (fields.foldl (ContextMerger.manualFieldStep existing inferred) acc).2,
      c.field = p ∧ c.type = .preserved ∧ c.newValue = some v := by
  induction fields generalizing acc with
  | nil => simp at hmem
  | cons q rest ih =>
      rcases List.mem_cons.mp hmem with rfl | hmem2
      · rw [List.foldl_cons,
          manualFieldStep_hit existing inferred acc p v
            (htop p (List.mem_cons_self p rest)) hex hne]
        have hp_rest : p ∉ rest := (List.nodup_cons.mp hnodup).1
        obtain ⟨h1, suf, h2⟩ := manualFold_frame existing inferred rest p _
          (fun r hr => htop r (List.mem_cons_of_mem _ hr)) hp_rest
        constructor
        · rw [h1]
          exact assocGet_assocSet_self _ _ _
        · rw [h2]
          refine ⟨{ field := p, type := .preserved,
                    oldValue := assocGet inferred p, newValue := some v,
                    reason := "Manually edited field preserved" }, ?_, rfl, rfl, rfl⟩
          exact List.mem_append_left _ (List.mem_append_right _ (List.mem_singleton_self _))
      · rw [List.foldl_cons]
        exact ih _ hmem2 (List.Nodup.of_cons hnodup)
          (fun r hr => htop r (List.mem_cons_of_mem _ hr))
theorem preserveFieldStep_keeps (existing inferred : Project)
    (acc : Project × List MergeChange) (f p : String) (v : Value)
    (hacc : assocGet acc.1 p = some v) (hex : assocGet existing p = some v) :
    assocGet (ContextMerger.preserveFieldStep existing inferred acc f).1 p = some v ∧
    ∃ suf, (ContextMerger.preserveFieldStep existing inferred acc f).2 = acc.2 ++ suf := by
  unfold ContextMerger.preserveFieldStep
  cases h : assocGet existing f with
  | none => exact ⟨hacc, [], by simp⟩
  | some ev =>
      dsimp only
      split
      · refine ⟨?_, _, rfl⟩
        by_cases hfp : f = p
        · subst hfp
          rw [h] at hex
          injection hex with hev
          rw [← hev]
          exact assocGet_assocSet_self _ _ _
        · rw [assocGet_assocSet_ne _ _ _ _ hfp]
          exact hacc
      · exact ⟨hacc, [], by simp⟩

theorem preserveFold_keeps (existing inferred : Project) (fields : List String)
    (p : String) (v : Value) (acc : Project × List MergeChange)
    (hacc : assocGet acc.1 p = some v) (hex : assocGet existing p = some v) :
    assocGet (fields.foldl (ContextMerger.preserveFieldStep existing inferred) acc).1 p =
      some v ∧
    ∃ suf, (fields.foldl (ContextMerger.preserveFieldStep existing inferred) acc).2 =
      acc.2 ++ suf := by
  induction fields generalizing acc with
  | nil => exact ⟨hacc, [], by simp⟩
  | cons f rest ih =>
      obtain ⟨h1, s1, h2⟩ := preserveFieldStep_keeps existing inferred acc f p v hacc hex
      obtain ⟨h3, s2, h4⟩ := ih (ContextMerger.preserveFieldStep existing inferred acc f) h1
      refine ⟨?_, s1 ++ s2, ?_⟩
      · rw [List.foldl_cons]
        exact h3
      · rw [List.foldl_cons, h4, h2, List.append_assoc]

theorem inferredKeyStep_append (existing inferred : Project) (mf : List String)
    (changes : List MergeChange) (key : String) :
    ∃ suf, ContextMerger.inferredKeyStep existing inferred mf changes key =
      changes ++ suf := by
  unfold ContextMerger.inferredKeyStep
  split
  · exact ⟨[], by simp⟩
  · dsimp only
    split
    · split
      · exact ⟨_, rfl⟩
      · exact ⟨_, rfl⟩
    · exact ⟨[], by simp⟩

theorem inferredKeyFold_append (existing inferred : Project) (mf : List String)
    (keys : List String) (changes : List MergeChange) :
    ∃ suf, keys.foldl (ContextMerger.inferredKeyStep existing inferred mf) changes =
      changes ++ suf := by
  induction keys generalizing changes with
  | nil => exact ⟨[], by simp⟩
  | cons k rest ih =>
      obtain ⟨s1, h1⟩ := inferredKeyStep_append existing inferred mf changes k
      obtain ⟨s2, h2⟩ := ih (ContextMerger.inferredKeyStep existing inferred mf changes k)
      refine ⟨s1 ++ s2, ?_⟩
      rw [List.foldl_cons, h2, h1, List.append_assoc]

/-- C1 (amended): manual preservation holds in `mergeProject`: for a
top-level (dot-free) field path `p` other than `updatedAt` tracked Manual
for `project.json`, with a value `v` present in `existing` whose
serialization differs from the inferred value at `p`, the merged project
carries `v` at `p` and a `preserved` change for `p` is recorded.  (The
other kinds do not implement this: see the counterexample for stack.) -/
theorem mergeProject_preserves_manual (st : PreludeState) (existing inferred : Project)
    (now : String) (p : String) (v : Value)
    (hmem : p ∈ StateManager.getManualFields st "project.json")
    (hnodup : (StateManager.getManualFields st "project.json").Nodup)
    (htop : ∀ q ∈ StateManager.getManualFields st "project.json", ContextMerger.splitDot q = [q])
    (hup : p ≠ "updatedAt")
    (hex : assocGet existing p = some v)
    (hne : stringifyOpt (some v) ≠ stringifyOpt (assocGet inferred p)) :
    assocGet (ContextMerger.mergeProject st existing inferred now).merged p = some v ∧
    ∃ c ∈ (ContextMerger.mergeProject st existing inferred now).changes,
      c.field = p ∧ c.type = .preserved ∧ c.newValue = some v := by
  unfold ContextMerger.mergeProject
  dsimp only
  obtain ⟨h1, c, hcmem, hcprops⟩ :=
    manualFold_spec existing inferred _ p v (inferred, []) hmem hnodup htop hex hne
  obtain ⟨h2, s2, hs2⟩ := preserveFold_keeps existing inferred
    ContextMerger.preserveFields p v _ h1 hex
  obtain ⟨s3, hs3⟩ := inferredKeyFold_append existing inferred
    (StateManager.getManualFields st "project.json") (inferred.map (·.1)) _
  constructor
  · rw [assocGet_assocSet_ne _ _ _ _ (fun hh => hup hh.symm)]
    exact h2
  · rw [hs3, hs2]
    exact ⟨c, List.mem_append_left _ (List.mem_append_left _ hcmem), hcprops⟩
/-- C1, concrete instance of `mergeProject_preserves_manual`. -/
theorem mergeProject_preserves_manual_witness :
    assocGet (ContextMerger.mergeProject
        (StateManager.trackManual (createInitialState "t0") "project.json"
          "name" (.vstr "Custom Name") "t1")
        [("name", .vstr "Custom Name"), ("description", .vstr "d")]
        [("name", .vstr "inferred-name"), ("description", .vstr "d")] "t2").merged
      "name" = some (.vstr "Custom Name") ∧
    ∃ c ∈ (ContextMerger.mergeProject
        (StateManager.trackManual (createInitialState "t0") "project.json"
          "name" (.vstr "Custom Name") "t1")
        [("name", .vstr "Custom Name"), ("description", .vstr "d")]
        [("name", .vstr "inferred-name"), ("description", .vstr "d")] "t2").changes,
      c.field = "name" ∧ c.type = .preserved ∧ c.newValue = some (.vstr "Custom Name") :=
  mergeProject_preserves_manual
    (StateManager.trackManual (createInitialState "t0") "project.json"
      "name" (.vstr "Custom Name") "t1")
    [("name", .vstr "Custom Name"), ("description", .vstr "d")]
    [("name", .vstr "inferred-name"), ("description", .vstr "d")]
    "t2" "name" (.vstr "Custom Name")
    (by decide) (by decide) (by decide) (by decide) rfl (by decide)
/-! ### C7: provenance tracking after a merge -/

theorem trackAllFieldsStep_frame (file : String) (merged inferred : List (String × Value))
    (now : String) (st : PreludeState) (k key : String) (hne : k ≠ key) :
    StateManager.getFieldState (trackAllFieldsStep file merged inferred now st k)
      file key = StateManager.getFieldState st file key := by
  unfold trackAllFieldsStep
  cases h : assocGet merged k with
  | none => rfl
  | some mv =>
      dsimp only
      split
      · exact getFieldState_trackInferred_ne st file k key mv now hne
      · exact getFieldState_trackManual_ne st file k key mv now hne

theorem trackFold_frame (file : String) (merged inferred : List (String × Value))
    (now : String) (keys : List String) (st : PreludeState) (key : String)
    (hp : key ∉ keys) :
    StateManager.getFieldState
      (keys.foldl (trackAllFieldsStep file merged inferred now) st) file key =
      StateManager.getFieldState st file key := by
  induction keys generalizing st with
  | nil => rfl
  | cons k rest ih =>
      rw [List.foldl_cons]
      rw [ih _ (fun hh => hp (List.mem_cons_of_mem _ hh))]
      exact trackAllFieldsStep_frame file merged inferred now st k key
        (fun hh => hp (hh ▸ List.mem_cons_self k rest))

theorem trackAllFieldsStep_hit (file : String) (merged inferred : List (String × Value))
    (now : String) (st : PreludeState) (key : String) (v : Value)
    (hget : assocGet merged key = some v) :
    (StateManager.getFieldState (trackAllFieldsStep file merged inferred now st key)
        file key).map (fun fs => fs.source) =
      some (if stringifyOpt (some v) = stringifyOpt (assocGet inferred key)
            then Source.inferred else Source.manual) := by
  unfold trackAllFieldsStep
  rw [hget]
  dsimp only
  split
  next =>
    rw [getFieldState_trackInferred_self]
    rfl
  next =>
    rw [getFieldState_trackManual_self]
    rfl

/-- C7: after `trackAllFields`, every key present in the merged document is
tagged Inferred when its serialized value equals the inferred document's
value at the same key (even if it was Manual before — inference caught
up), and Manual otherwise (including when the key is absent from the
inferred document). -/
theorem trackAllFields_tags (st : PreludeState) (file : String)
    (merged inferred : List (String × Value)) (now : String) (key : String) (v : Value)
    (hnodup : (merged.map (·.1)).Nodup) (hget : assocGet merged key = some v) :
    (StateManager.getFieldState (trackAllFields st file merged inferred now)
        file key).map (fun fs => fs.source) =
      some (if stringifyOpt (some v) = stringifyOpt (assocGet inferred key)
            then Source.inferred else Source.manual) := by
  unfold trackAllFields
  have hmem : key ∈ merged.map (·.1) := mem_keys_of_assocGet hget
  obtain ⟨keys, hkeys⟩ : ∃ keys, merged.map (·.1) = keys := ⟨_, rfl⟩
  rw [hkeys] at hmem hnodup ⊢
  clear hkeys
  induction keys generalizing st with
  | nil => simp at hmem
  | cons k rest ih =>
      rw [List.foldl_cons]
      rcases List.mem_cons.mp hmem with rfl | hmem2
      · have hrest : key ∉ rest := (List.nodup_cons.mp hnodup).1
        rw [trackFold_frame file merged inferred now rest _ key hrest]
        exact trackAllFieldsStep_hit file merged inferred now st key v hget
      · exact ih _ (List.Nodup.of_cons hnodup) hmem2

/-- C7, concrete instance of `trackAllFields_tags`: the key `b` is absent
from the inferred document, so it is tagged Manual. -/
theorem trackAllFields_tags_witness :
    (StateManager.getFieldState
        (trackAllFields (createInitialState "t0") "stack.json"
          [("a", .vstr "x"), ("b", .vstr "y")] [("a", .vstr "x")] "t1")
        "stack.json" "b").map (fun fs => fs.source) = some Source.manual := by
  rw [trackAllFields_tags (createInitialState "t0") "stack.json"
    [("a", .vstr "x"), ("b", .vstr "y")] [("a", .vstr "x")] "t1" "b" (.vstr "y")
    (by decide) rfl]
  rfl

/-! ### C6: force mode -/

/-- C6 (amended): a force pass replaces the four context documents with the
freshly inferred ones and leaves the decision log and changelog untouched,
but it does not touch the provenance store at all: the state file is
unchanged, so a field tracked Manual stays tagged Manual — the claimed
re-tagging to Inferred does not happen. -/
theorem forceUpdate_overwrites_docs_keeps_state (w : World) (infer : InferOracle)
    (ip : Project) (istk : Stack) (ia : Architecture) (ic : Constraints) (now : String)
    (hp : infer.project = .ok ip) (hs : infer.stack = .ok istk)
    (ha : infer.architecture = .ok ia) (hc : infer.constraints = .ok ic) :
    update w infer true false now =
      .forced { w with history := w.history ++ [w.state],
                       project := ip, stack := istk,
                       architecture := ia, constraints := ic } := by
  unfold update
  rw [hp, hs, ha, hc]
  rfl

/-- C6, concrete instance of `forceUpdate_overwrites_docs_keeps_state`. -/
theorem forceUpdate_overwrites_docs_keeps_state_witness :
    update baseWorld okOracle true false "t2" =
      .forced { baseWorld with history := baseWorld.history ++ [baseWorld.state],
                               project := baseProject, stack := baseStack,
                               architecture := baseArchitecture,
                               constraints := baseConstraints } :=
  forceUpdate_overwrites_docs_keeps_state baseWorld okOracle baseProject baseStack
    baseArchitecture baseConstraints "t2" rfl rfl rfl rfl

/-- C6, counterexample to the claim as stated: the world's project document
(manually renamed to "My App", tracked Manual) is replaced by the inferred
one in a force pass, yet the field is still tagged Manual afterwards — the
provenance store is exactly the one from before the pass. -/
theorem force_no_retag_cex :
    StateManager.isManuallyEdited
      ((update { baseWorld with
            project := [("name", .vstr "My App")],
            state := StateManager.trackManual (createInitialState "t0") "project.json"
              "name" (.vstr "My App") "t1" }
          okOracle true false "t2").world).state "project.json" "name" = true ∧
    ((update { baseWorld with
            project := [("name", .vstr "My App")],
            state := StateManager.trackManual (createInitialState "t0") "project.json"
              "name" (.vstr "My App") "t1" }
          okOracle true false "t2").world).project = baseProject ∧
    ((update { baseWorld with
            project := [("name", .vstr "My App")],
            state := StateManager.trackManual (createInitialState "t0") "project.json"
              "name" (.vstr "My App") "t1" }
          okOracle true false "t2").world).state =
      StateManager.trackManual (createInitialState "t0") "project.json"
        "name" (.vstr "My App") "t1" :=
  ⟨rfl, rfl, rfl⟩

/-! ### C8: failure isolation -/

/-- C8, counterexample to the claim as stated: in the `update` pass, a
single kind's inference failure (stack) reaches the surrounding try/catch,
which logs and exits the process — the pass is aborted before any document
write, so architecture is not merged or persisted even though its own
inference succeeded, and no per-kind result object is produced. -/
theorem update_abort_on_kind_failure_cex :
    update baseWorld
      { project := .ok baseProject, stack := .error "stack inference failed",
        architecture := .ok baseArchitecture, constraints := .ok baseConstraints }
      false false "t1" =
      .exited "stack inference failed"
        { baseWorld with history := baseWorld.history ++ [baseWorld.state] } := rfl

/-- C8 (amended): per-kind failure isolation holds in the watch-path
`updateContext`: each kind's inference and write run in their own
try/catch, so when stack inference fails while architecture inference
succeeds (both being triggered), the stack error is recorded in the
result's `errors`, and architecture is still inferred and persisted and
listed in `updated` — nothing is thrown past the function. -/
theorem updateContext_isolates_failures (files : List String) (w : WatchWorld)
    (infer : InferOracle) (now : String) (e : String) (a : Architecture)
    (hs : infer.stack = .error e) (ha : infer.architecture = .ok a)
    (hns : needsStackUpdate files = true) (hna : needsArchUpdate files = true) :
    ("Failed to update stack: " ++ e) ∈ (updateContext files w infer now).2.errors ∧
    "architecture.json" ∈ (updateContext files w infer now).2.updated ∧
    (updateContext files w infer now).1.architecture = some a := by
  unfold updateContext
  rw [hns, hs, hna, ha]
  simp only [if_true]
  by_cases hnc : needsConstraintsUpdate files
  · rw [if_pos hnc]
    cases hic : infer.constraints with
    | ok c => cases hw : w.project <;> simp
    | error ec => cases hw : w.project <;> simp
  · rw [if_neg hnc]
    cases hw : w.project <;> simp

/-- C8, concrete instance of `updateContext_isolates_failures`. -/
theorem updateContext_isolates_failures_witness :
    ("Failed to update stack: " ++ "parse error") ∈
      (updateContext ["package.json", "src/app.ts"]
        { project := none, stack := none, architecture := none, constraints := none }
        { project := .ok baseProject, stack := .error "parse error",
          architecture := .ok baseArchitecture, constraints := .ok baseConstraints }
        "t1").2.errors ∧
    "architecture.json" ∈
      (updateContext ["package.json", "src/app.ts"]
        { project := none, stack := none, architecture := none, constraints := none }
        { project := .ok baseProject, stack := .error "parse error",
          architecture := .ok baseArchitecture, constraints := .ok baseConstraints }
        "t1").2.updated ∧
    (updateContext ["package.json", "src/app.ts"]
        { project := none, stack := none, architecture := none, constraints := none }
        { project := .ok baseProject, stack := .error "parse error",
          architecture := .ok baseArchitecture, constraints := .ok baseConstraints }
        "t1").1.architecture = some baseArchitecture :=
  updateContext_isolates_failures ["package.json", "src/app.ts"]
    { project := none, stack := none, architecture := none, constraints := none }
    { project := .ok baseProject, stack := .error "parse error",
      architecture := .ok baseArchitecture, constraints := .ok baseConstraints }
    "t1" "parse error" baseArchitecture rfl rfl (by decide) (by decide)

/-! ### C10: the no-change early return -/

/-- C10: when merging all four kinds produces an empty combined change
list, the non-force non-dry-run `update` pass returns before persisting:
none of the four documents is rewritten and the live provenance state is
neither re-tracked nor saved — the resulting world differs from the input
only by the backup snapshot appended at the start of the pass. -/
theorem update_no_changes_frame (w : World) (infer : InferOracle)
    (ip : Project) (istk : Stack) (ia : Architecture) (ic : Constraints) (now : String)
    (hp : infer.project = .ok ip) (hs : infer.stack = .ok istk)
    (ha : infer.architecture = .ok ia) (hc : infer.constraints = .ok ic)
    (hchanges : allChangesOf (ContextMerger.mergeProject w.state w.project ip now)
      (ContextMerger.mergeStack w.stack istk)
      (ContextMerger.mergeArchitecture w.state w.architecture ia)
      (ContextMerger.mergeConstraints w.state w.constraints ic) = []) :
    update w infer false false now =
      .noChanges { w with history := w.history ++ [w.state] } := by
  unfold update
  rw [hp, hs, ha, hc]
  simp only [Bool.false_eq_true, if_false]
  rw [hchanges]
  rfl

/-- C10, concrete instance of `update_no_changes_frame`: re-inferring the
same documents produces no changes, so the pass leaves every document and
the state file as they were, with only the backup appended. -/
theorem update_no_changes_frame_witness :
    update baseWorld okOracle false false "t9" =
      .noChanges { baseWorld with history := baseWorld.history ++ [baseWorld.state] } :=
  update_no_changes_frame baseWorld okOracle baseProject baseStack baseArchitecture
    baseConstraints "t9" rfl rfl rfl rfl rfl
